import Mathlib

set_option linter.unusedTactic false
set_option linter.unreachableTactic false
set_option linter.unusedVariables false

/-!
# nerrgroup: a task group with nested submission

A shallow embedding of `nerrgroup.go`.  The `Group` record carries the fields of the Go
struct that hold data; the monitor (`cond`) is represented by the atomicity of the steps
that run under its lock and by the enabledness of the steps that block on it.

The concurrent program is an interleaving of atomic steps taken by three kinds of
goroutine: the owner (calls `Go` and `SetLimit`, then `Wait`), the dispatcher
(`schedulingTasks`) and one runner per dispatched task (`startTask`).  A step is one access
to shared state whose effect another goroutine can observe:

* `Wait` is five steps: spawning the dispatcher, the return of `wg.Wait()`, the call of
  `cancel`, the critical section that sets `exitFlag`, and the read of `s.err`.
* `schedulingTasks` alternates the send on `sem` and the critical section, which either
  returns (flag set), or pops the head of `todo` and spawns a runner, or is blocked in
  `cond.Wait()` (flag unset, queue empty).
* `startTask` is the `Go` calls made by the task function, then the return of the function
  together with `errOnce.Do`, then the receive from `sem`, then `wg.Done()`.  The return of
  the function touches no shared state, so the order in which tasks complete is the order
  in which they reach the `if err != nil` statement.
* `Go` is one step.  Its `wg.Add(1)` is made by the owner before `Wait`, or by a runner
  that is itself counted in `wg`; the counter is positive before and after it, so no
  other goroutine can tell the state between `wg.Add(1)` and the critical section from
  the state before the call.

The owner calls `Go` and `SetLimit` only before `Wait`; afterwards only running tasks
submit.  Task functions are finite: they make some `Go` calls and return.
-/

namespace Nerrgroup

/-! ## Data model -/

/-- A task (`type task func() error`), seen through what it does to the group: it calls
`Go` on further tasks in some order and finally returns `nil` (`none`) or an error. -/
inductive Task where
  | ret (e : Option String)
  | go (child : Task) (rest : Task)
  deriving DecidableEq, Repr

/-- The error the task function returns once it has run to its end. -/
def Task.result : Task → Option String
  | .ret e => e
  | .go _ k => k.result

/-- A `chan struct{}`: elements carry no data, so a channel is its capacity and the number
of buffered elements. -/
structure Sem where
  cap : Nat
  len : Nat
  deriving DecidableEq, Repr

/-- The `Group` struct.  `sem = none` is the nil channel, `wg` the WaitGroup counter,
`cancel` tells whether the cancel function is non-nil, `errOnce` whether the `sync.Once`
has fired. -/
structure Group where
  sem : Option Sem
  wg : Int
  cancel : Bool
  errOnce : Bool
  err : Option String
  todo : List Task
  deriving DecidableEq, Repr

/-- `New()`. -/
def New : Group :=
  { sem := none, wg := 0, cancel := false, errOnce := false, err := none, todo := [] }

/-- `WithContext(ctx)`: the group half of the result; the derived context is the scope
that the stored cancel function terminates. -/
def WithContext : Group :=
  { sem := none, wg := 0, cancel := true, errOnce := false, err := none, todo := [] }

/-- `Group.Go`: `wg.Add(1)`, then under the lock append to `todo` and signal. -/
def Go (s : Group) (fn : Task) : Group :=
  { s with wg := s.wg + 1, todo := s.todo ++ [fn] }

/-- Go's `len(ch)`; zero for the nil channel. -/
def semLen : Option Sem → Nat
  | none => 0
  | some c => c.len

/-- `Group.SetLimit`.  The first component is the panic value, if the call panics; the
second is the group after the call. -/
def SetLimit (s : Group) (n : Int) : Option String × Group :=
  if n < 0 then
    (none, { s with sem := none })
  else if semLen s.sem ≠ 0 then
    (some ("nerrgroup: modify limit while " ++ toString (semLen s.sem) ++
      " goroutines in the group are still active"), s)
  else
    (none, { s with sem := some { cap := n.toNat, len := 0 } })

/-- The guarded send `if s.sem != nil { s.sem <- struct{}{} }` of `schedulingTasks`, when
it can complete through the buffer; `none` when the send blocks. -/
def semSend (s : Group) : Option Group :=
  match s.sem with
  | none => some s
  | some c => if c.len < c.cap then some { s with sem := some { c with len := c.len + 1 } }
              else none

/-- The guarded receive `if s.sem != nil { <-s.sem }` of `done`, when it can complete from
the buffer; `none` when the receive blocks. -/
def semRecv (s : Group) : Option Group :=
  match s.sem with
  | none => some s
  | some c => if 0 < c.len then some { s with sem := some { c with len := c.len - 1 } }
              else none

/-- The `s.wg.Done()` of `done`; `none` is the negative-counter panic. -/
def wgDone (s : Group) : Option Group :=
  if s.wg - 1 < 0 then none else some { s with wg := s.wg - 1 }

/-- `Group.done` run without interruption: receive from `sem`, then `wg.Done()`. -/
def done (s : Group) : Option Group :=
  (semRecv s).bind wgDone

/-- The statement `if err := fn(); err != nil { s.errOnce.Do(...) }` of `startTask`, given
the value `e` that `fn()` returned (the deferred `done` runs after it).  The second
component is the number of calls of `cancel` it makes. -/
def startTask (s : Group) (e : Option String) : Group × Nat :=
  match e with
  | none => (s, 0)
  | some err =>
    if s.errOnce then (s, 0)
    else ({ s with errOnce := true, err := some err }, if s.cancel then 1 else 0)

/-! ## The interleaving semantics -/

/-- Where the owner is: before `Wait`, or at one of the statements of `Wait`. -/
inductive OwnerPc where
  | idle
  | waiting
  | woke
  | cancelled
  | signalled
  | returned (v : Option String)
  deriving DecidableEq, Repr

/-- Where the dispatcher (`schedulingTasks`) is: not yet spawned, at the send on `sem`, at
the critical section, or returned. -/
inductive DispPc where
  | notStarted
  | acquire
  | locked
  | exited
  deriving DecidableEq, Repr

/-- The state of the whole program.  `execs` are the runners still inside `fn()`, each with
the rest of its task; `releasing` counts runners in `done` before the receive from `sem`,
`finishing` those between the receive and `wg.Done()`.  The last five fields are history
variables: they record what has happened and influence no step. -/
structure Sys where
  g : Group
  exitFlag : Bool
  owner : OwnerPc
  disp : DispPc
  execs : List Task
  releasing : Nat
  finishing : Nat
  enq : List Task
  started : List Task
  outcomes : List (Option String)
  finished : Nat
  cancelCalls : Nat
  deriving DecidableEq, Repr

/-- The program right after `New()` (`withCtx = false`) or `WithContext` (`true`). -/
def init (withCtx : Bool) : Sys :=
  { g := if withCtx then WithContext else New
    exitFlag := false, owner := .idle, disp := .notStarted
    execs := [], releasing := 0, finishing := 0
    enq := [], started := [], outcomes := [], finished := 0, cancelCalls := 0 }

/-- The atomic steps. -/
inductive Action where
  /-- The owner calls `Go(fn)` before `Wait`. -/
  | go (fn : Task)
  /-- The owner calls `SetLimit(n)` before `Wait`. -/
  | setLimit (n : Int)
  /-- The owner enters `Wait`: `exitFlag := false; go s.schedulingTasks(&exitFlag)`. -/
  | wait
  /-- The owner's `s.wg.Wait()` returns. -/
  | wake
  /-- The owner runs `if s.cancel != nil { s.cancel() }`. -/
  | waitCancel
  /-- The owner runs `Lock; exitFlag = true; Signal; Unlock`. -/
  | signal
  /-- The owner runs `return s.err`. -/
  | waitReturn
  /-- The dispatcher's guarded send on `sem` completes through the buffer. -/
  | acquire
  /-- The dispatcher's send meets a runner's receive on an unbuffered `sem`. -/
  | handoff
  /-- The dispatcher's critical section with `exitFlag` unset and `todo` non-empty. -/
  | dispatch
  /-- The dispatcher's critical section with `exitFlag` set. -/
  | dispExit
  /-- Runner `i` calls `Go` on the next child of its task. -/
  | taskGo (i : Nat)
  /-- Runner `i` returns from `fn()` and completes the `if err != nil` statement. -/
  | taskRet (i : Nat)
  /-- A runner completes the guarded receive of `done` from the buffer. -/
  | release
  /-- A runner runs `s.wg.Done(); s.cond.Signal()` and ends. -/
  | finish
  deriving DecidableEq, Repr

/-- One atomic step; `none` when the step is not enabled (its goroutine is elsewhere, it
blocks, or it panics). -/
def step (a : Action) (s : Sys) : Option Sys :=
  match a with
  | .go fn =>  -- Go, lines 39-46
    if s.owner = .idle then some { s with g := Go s.g fn, enq := s.enq ++ [fn] } else none
  | .setLimit n =>  -- SetLimit, lines 76-89
    if s.owner = .idle then
      match SetLimit s.g n with
      | (none, g') => some { s with g := g' }
      | (some _, _) => none
    else none
  | .wait =>  -- Wait, lines 52-54
    if s.owner = .idle then
      some { s with exitFlag := false, owner := .waiting, disp := .acquire }
    else none
  | .wake =>  -- Wait, line 56
    if s.owner = .waiting ∧ s.g.wg = 0 then some { s with owner := .woke } else none
  | .waitCancel =>  -- Wait, lines 57-59
    if s.owner = .woke then
      some { s with owner := .cancelled
                    cancelCalls := s.cancelCalls + (if s.g.cancel then 1 else 0) }
    else none
  | .signal =>  -- Wait, lines 61-64
    if s.owner = .cancelled then some { s with owner := .signalled, exitFlag := true }
    else none
  | .waitReturn =>  -- Wait, line 66
    if s.owner = .signalled then some { s with owner := .returned s.g.err } else none
  | .acquire =>  -- schedulingTasks, lines 101-103
    if s.disp = .acquire then
      match semSend s.g with
      | some g' => some { s with g := g', disp := .locked }
      | none => none
    else none
  | .handoff =>  -- schedulingTasks, line 102, meeting done, line 93
    match s.g.sem with
    | some c =>
      if s.disp = .acquire ∧ c.cap = 0 ∧ 0 < s.releasing then
        some { s with disp := .locked, releasing := s.releasing - 1
                      finishing := s.finishing + 1 }
      else none
    | none => none
  | .dispatch =>  -- schedulingTasks, lines 105-118
    if s.disp = .locked ∧ s.exitFlag = false then
      match s.g.todo with
      | [] => none
      | fn :: rest =>
        some { s with g := { s.g with todo := rest }, disp := .acquire
                      execs := s.execs ++ [fn], started := s.started ++ [fn] }
    else none
  | .dispExit =>  -- schedulingTasks, lines 105-113
    if s.disp = .locked ∧ s.exitFlag = true then some { s with disp := .exited } else none
  | .taskGo i =>  -- Go, lines 39-46, called from fn() in startTask, line 125
    match s.execs[i]? with
    | some (.go child rest) =>
      some { s with g := Go s.g child, execs := s.execs.set i rest
                    enq := s.enq ++ [child] }
    | _ => none
  | .taskRet i =>  -- startTask, lines 125-132
    match s.execs[i]? with
    | some (.ret e) =>
      some { s with g := (startTask s.g e).1, execs := s.execs.eraseIdx i
                    releasing := s.releasing + 1, outcomes := s.outcomes ++ [e]
                    cancelCalls := s.cancelCalls + (startTask s.g e).2 }
    | _ => none
  | .release =>  -- done, lines 92-94
    if 0 < s.releasing then
      match semRecv s.g with
      | some g' => some { s with g := g', releasing := s.releasing - 1
                                 finishing := s.finishing + 1 }
      | none => none
    else none
  | .finish =>  -- done, lines 95-96
    if 0 < s.finishing then
      match wgDone s.g with
      | some g' => some { s with g := g', finishing := s.finishing - 1
                                 finished := s.finished + 1 }
      | none => none
    else none

/-- Run a schedule: the steps in order, `none` as soon as one is not enabled. -/
def run : List Action → Sys → Option Sys
  | [], s => some s
  | a :: as, s => (step a s).bind (run as)

/-! ## Derived quantities -/

/-- One when the dispatcher has completed a send on `sem` that no runner has taken over:
it sits at its critical section or has returned from there. -/
def dispHolds : DispPc → Nat
  | .locked => 1
  | .exited => 1
  | _ => 0

/-- Runners that still hold their permit: inside `fn()` or before the receive of `done`. -/
def holding (s : Sys) : Nat := s.execs.length + s.releasing

/-- Runners that have not yet called `wg.Done()`. -/
def live (s : Sys) : Nat := s.execs.length + s.releasing + s.finishing

/-- The owner has passed `s.wg.Wait()`. -/
def pastWake : OwnerPc → Bool
  | .idle => false
  | .waiting => false
  | _ => true

/-- The owner has passed the `if s.cancel != nil` statement of `Wait`. -/
def pastCancel : OwnerPc → Bool
  | .cancelled => true
  | .signalled => true
  | .returned _ => true
  | _ => false

/-- The owner has set `exitFlag`. -/
def pastSignal : OwnerPc → Bool
  | .signalled => true
  | .returned _ => true
  | _ => false

/-- The first failure in a log of task outcomes, `none` when all are successes. -/
def firstFailure : List (Option String) → Option String
  | [] => none
  | none :: l => firstFailure l
  | some e :: _ => some e

/-- The configured limit: the capacity of `sem`, `none` when the group is unlimited. -/
def limitOf (s : Sys) : Option Nat := s.g.sem.map Sem.cap

/-- The steps of the dispatcher that start work and the steps of the runners. -/
def Action.byWorker : Action → Bool
  | .acquire => true
  | .handoff => true
  | .dispatch => true
  | .taskGo _ => true
  | .taskRet _ => true
  | .release => true
  | .finish => true
  | _ => false

/-- The state a schedule leads to from `init c` (`init c` itself when the schedule cannot
be run to its end). -/
def after (c : Bool) (acts : List Action) : Sys := (run acts (init c)).getD (init c)

/-- The steps of work a task still stands for once it runs: its own return, release and
`wg.Done()`, and for each `Go` call the call and all the work of the child. -/
def Task.cost : Task → Nat
  | .ret _ => 3
  | .go child rest => child.cost + rest.cost + 3

/-- An upper bound on the number of dispatcher and runner steps still to come. -/
def work (s : Sys) : Nat :=
  (s.g.todo.map Task.cost).sum + 2 * s.g.todo.length + (s.execs.map Task.cost).sum +
    2 * s.releasing + s.finishing + (if s.disp = .acquire then 1 else 0)

/-! ## Sample schedules -/

/-- Three tasks returning success, failure "boom", success; no limit; run through the
return of `Wait`, the failing task completing first. -/
def boomSchedule : List Action :=
  [.go (.ret none), .go (.ret (some "boom")), .go (.ret none), .wait,
   .acquire, .dispatch, .acquire, .dispatch, .acquire, .dispatch,
   .taskRet 1, .taskRet 0, .taskRet 0, .release, .release, .release,
   .finish, .finish, .finish, .wake, .waitCancel, .signal, .waitReturn]

/-- One task that submits a child and returns; stopped while the parent is inside `done`
and the child is still queued. -/
def nestedSchedule : List Action :=
  [.go (.go (.ret none) (.ret none)), .wait, .acquire, .dispatch, .taskGo 0, .taskRet 0,
   .release]

/-- Limit 2 and four tasks; stopped when two tasks run and two are queued. -/
def fourSchedule : List Action :=
  [.setLimit 2, .go (.ret none), .go (.ret none), .go (.ret none), .go (.ret none), .wait,
   .acquire, .dispatch, .acquire, .dispatch]

/-- Two tasks, the first of which submits a third once it runs. -/
def fifoSchedule : List Action :=
  [.go (.go (.ret (some "c")) (.ret none)), .go (.ret (some "b")), .wait,
   .acquire, .dispatch, .taskGo 0]

/-- One failing task, stopped right after its failure is recorded. -/
def failSchedule : List Action :=
  [.go (.ret (some "boom")), .wait, .acquire, .dispatch, .taskRet 0]

/-- One failing task, run through the return of `Wait`. -/
def failFullSchedule : List Action :=
  [.go (.ret (some "boom")), .wait, .acquire, .dispatch, .taskRet 0, .release, .finish,
   .wake, .waitCancel, .signal, .waitReturn]

/-- One succeeding task, run through the return of `Wait`. -/
def okFullSchedule : List Action :=
  [.go (.ret none), .wait, .acquire, .dispatch, .taskRet 0, .release, .finish,
   .wake, .waitCancel, .signal, .waitReturn]

/-- Limit 1, one task, run until `Wait` has returned and the dispatcher has exited. -/
def leakSchedule : List Action :=
  [.setLimit 1, .go (.ret none), .wait, .acquire, .dispatch, .taskRet 0, .release, .finish,
   .wake, .waitCancel, .signal, .waitReturn, .acquire, .dispExit]

/-- Limit 0, one task, `Wait` entered. -/
def stuckSchedule : List Action :=
  [.setLimit 0, .go (.ret none), .wait]

/-- Limit 1, two tasks, stopped while the first runs and the second is queued. -/
def busySchedule : List Action :=
  [.setLimit 1, .go (.ret none), .go (.ret none), .wait, .acquire, .dispatch]

/-! ## The invariant -/

/-- What holds in every state a schedule reaches from `init c`. -/
structure Inv (c : Bool) (s : Sys) : Prop where
  wg_eq : s.g.wg = (s.g.todo.length + live s : Nat)
  enq_len : s.enq.length = s.g.todo.length + live s + s.finished
  fifo : s.started ++ s.g.todo = s.enq
  permits : ∀ m, s.g.sem = some m → m.len = dispHolds s.disp + holding s ∧ m.len ≤ m.cap
  idle : s.owner = .idle →
    s.disp = .notStarted ∧ live s = 0 ∧ s.started = [] ∧ s.outcomes = []
  spawned : s.disp = .notStarted → s.owner = .idle
  drained : pastWake s.owner = true → s.g.wg = 0
  flag : s.exitFlag = pastSignal s.owner
  exited : s.disp = .exited → s.exitFlag = true
  err_eq : s.g.err = firstFailure s.outcomes
  once : s.g.errOnce = s.g.err.isSome
  results : List.Perm (s.outcomes ++ (s.execs.map Task.result ++ s.g.todo.map Task.result))
    (s.enq.map Task.result)
  cancel_eq : s.g.cancel = c
  cancels : s.cancelCalls =
    (if c = true ∧ s.g.err.isSome = true then 1 else 0) +
    (if c = true ∧ pastCancel s.owner = true then 1 else 0)
  ret : ∀ v, s.owner = .returned v → v = s.g.err
  started_len : s.started.length = live s + s.finished
  zero_cap : ∀ m, s.g.sem = some m → m.cap = 0 → s.started = []

theorem inv_init (c : Bool) : Inv c (init c) := by
  cases c <;> constructor <;>
    simp [init, New, WithContext, live, holding, dispHolds, pastWake, pastSignal,
      pastCancel, firstFailure]

theorem getElem?_split {α : Type} {l : List α} {i : Nat} {x : α} (h : l[i]? = some x) (y : α) :
    ∃ pre post, l = pre ++ x :: post ∧ l.set i y = pre ++ y :: post ∧
      l.eraseIdx i = pre ++ post := by
  induction l generalizing i with
  | nil => simp at h
  | cons a l ih =>
    cases i with
    | zero =>
      simp at h
      exact ⟨[], l, by simp [h]⟩
    | succ i =>
      simp at h
      obtain ⟨pre, post, h1, h2, h3⟩ := ih h
      exact ⟨a :: pre, post, by simp [h1], by simp [h2], by simp [h3]⟩

theorem firstFailure_append (l : List (Option String)) (e : Option String) :
    firstFailure (l ++ [e]) = match firstFailure l with
      | some x => some x
      | none => e := by
  induction l with
  | nil => cases e <;> simp [firstFailure]
  | cons a l ih => cases a <;> simp [firstFailure, ih]

theorem inv_go {c : Bool} {s : Sys} (fn : Task) (hi : Inv c s) (ho : s.owner = .idle) :
    Inv c { s with g := Go s.g fn, enq := s.enq ++ [fn] } := by
  obtain ⟨h1, h2, h3, h4, h5, h6, h7, h8, h9, h10, h11, h12, h13, h14, h15, h16, h17⟩ := hi
  have h5' := h5 ho
  constructor <;>
    simp only [Go, live, holding, ho, pastWake, pastSignal, pastCancel, List.length_append,
      List.length_singleton, List.map_append, List.map_cons, List.map_nil] at * <;>
    try (first
      | assumption
      | omega
      | (simp [*]; done)
      | (intro hd; have := h6 hd; simp at this; done))
  case fifo => rw [← h3, List.append_assoc]
  case results =>
    have := h12.append_right [fn.result]
    simpa using this

theorem inv_setLimit {c : Bool} {s : Sys} (n : Int) (g' : Group) (hi : Inv c s)
    (ho : s.owner = .idle) (hg : SetLimit s.g n = (none, g')) : Inv c { s with g := g' } := by
  obtain ⟨h1, h2, h3, h4, h5, h6, h7, h8, h9, h10, h11, h12, h13, h14, h15, h16, h17⟩ := hi
  have h5' := h5 ho
  simp only [SetLimit] at hg
  split at hg
  · simp at hg; subst hg
    constructor <;>
      simp only [live, holding, ho, pastWake, pastSignal, pastCancel] at * <;>
      try (first
        | assumption
        | omega
        | (simp [*]; done)
        | (intro hd; have := h6 hd; simp at this; done))
  · split at hg
    · simp at hg
    · simp at hg; subst hg
      constructor <;>
        simp only [live, holding, ho, pastWake, pastSignal, pastCancel] at * <;>
        try (first
          | assumption
          | omega
          | (simp [*]; done)
          | (intro hd; have := h6 hd; simp at this; done))
      case permits =>
        intro m hm
        simp at hm; subst hm
        simp [h5'.1, dispHolds]; omega

theorem inv_wait {c : Bool} {s : Sys} (hi : Inv c s) (ho : s.owner = .idle) :
    Inv c { s with exitFlag := false, owner := .waiting, disp := .acquire } := by
  obtain ⟨h1, h2, h3, h4, h5, h6, h7, h8, h9, h10, h11, h12, h13, h14, h15, h16, h17⟩ := hi
  have h5' := h5 ho
  constructor <;>
    simp only [live, holding, ho, pastWake, pastSignal, pastCancel] at * <;>
    try (first
      | assumption
      | omega
      | (simp [*]; done)
      | (intro hd; have := h6 hd; simp at this; done))
  case permits =>
    intro m hm
    have := h4 m hm
    simp [h5'.1, dispHolds] at this ⊢
    exact this

theorem inv_wake {c : Bool} {s : Sys} (hi : Inv c s) (ho : s.owner = .waiting)
    (hw : s.g.wg = 0) : Inv c { s with owner := .woke } := by
  obtain ⟨h1, h2, h3, h4, h5, h6, h7, h8, h9, h10, h11, h12, h13, h14, h15, h16, h17⟩ := hi
  constructor <;>
    simp only [live, holding, ho, pastWake, pastSignal, pastCancel] at * <;>
    try (first
      | assumption
      | omega
      | (simp [*]; done)
      | (intro hd; have := h6 hd; simp at this; done))

theorem inv_waitCancel {c : Bool} {s : Sys} (hi : Inv c s) (ho : s.owner = .woke) :
    Inv c { s with owner := .cancelled
                   cancelCalls := s.cancelCalls + (if s.g.cancel then 1 else 0) } := by
  obtain ⟨h1, h2, h3, h4, h5, h6, h7, h8, h9, h10, h11, h12, h13, h14, h15, h16, h17⟩ := hi
  constructor <;>
    simp only [live, holding, ho, pastWake, pastSignal, pastCancel] at * <;>
    try (first
      | assumption
      | omega
      | (simp [*]; done)
      | (intro hd; have := h6 hd; simp at this; done))

theorem inv_signal {c : Bool} {s : Sys} (hi : Inv c s) (ho : s.owner = .cancelled) :
    Inv c { s with owner := .signalled, exitFlag := true } := by
  obtain ⟨h1, h2, h3, h4, h5, h6, h7, h8, h9, h10, h11, h12, h13, h14, h15, h16, h17⟩ := hi
  constructor <;>
    simp only [live, holding, ho, pastWake, pastSignal, pastCancel] at * <;>
    try (first
      | assumption
      | omega
      | (simp [*]; done)
      | (intro hd; have := h6 hd; simp at this; done))

theorem inv_waitReturn {c : Bool} {s : Sys} (hi : Inv c s) (ho : s.owner = .signalled) :
    Inv c { s with owner := .returned s.g.err } := by
  obtain ⟨h1, h2, h3, h4, h5, h6, h7, h8, h9, h10, h11, h12, h13, h14, h15, h16, h17⟩ := hi
  constructor <;>
    simp only [live, holding, ho, pastWake, pastSignal, pastCancel] at * <;>
    try (first
      | assumption
      | omega
      | (simp [*]; done)
      | (intro hd; have := h6 hd; simp at this; done))

theorem inv_acquire {c : Bool} {s : Sys} (g' : Group) (hi : Inv c s) (hd : s.disp = .acquire)
    (hg : semSend s.g = some g') : Inv c { s with g := g', disp := .locked } := by
  obtain ⟨h1, h2, h3, h4, h5, h6, h7, h8, h9, h10, h11, h12, h13, h14, h15, h16, h17⟩ := hi
  simp only [semSend] at hg
  split at hg
  · simp at hg; subst hg
    constructor <;>
      simp only [live, holding, hd, pastWake, pastSignal, pastCancel] at * <;>
      try (first | assumption | omega | (simp [*]; done))
    case idle => intro ho; have := h5 ho; simp at this
  · rename_i m hm
    split at hg
    · simp at hg; subst hg
      have hp := h4 m hm
      constructor <;>
        simp only [live, holding, hd, pastWake, pastSignal, pastCancel] at * <;>
        try (first | assumption | omega | (simp [*]; done))
      case permits =>
        intro m' hm'
        simp at hm'; subst hm'
        simp [dispHolds] at hp ⊢; omega
      case idle => intro ho; have := h5 ho; simp at this
      case zero_cap =>
        intro m' hm' hc
        simp at hm'; subst hm'
        exact h17 m hm hc
    · simp at hg

theorem inv_handoff {c : Bool} {s : Sys} (m : Sem) (hi : Inv c s) (hm : s.g.sem = some m)
    (hd : s.disp = .acquire) (hr : 0 < s.releasing) :
    Inv c { s with disp := .locked, releasing := s.releasing - 1
                   finishing := s.finishing + 1 } := by
  obtain ⟨h1, h2, h3, h4, h5, h6, h7, h8, h9, h10, h11, h12, h13, h14, h15, h16, h17⟩ := hi
  have hp := h4 m hm
  constructor <;>
    simp only [live, holding, hd, pastWake, pastSignal, pastCancel] at * <;>
    try (first | assumption | omega | (simp [*]; done))
  case permits =>
    intro m' hm'
    rw [hm] at hm'; simp at hm'; subst hm'
    simp [dispHolds] at hp ⊢; omega
  case idle => intro ho; have := h5 ho; simp at this

theorem inv_dispatch {c : Bool} {s : Sys} (fn : Task) (rest : List Task) (hi : Inv c s)
    (hd : s.disp = .locked) (hf : s.exitFlag = false) (ht : s.g.todo = fn :: rest) :
    Inv c { s with g := { s.g with todo := rest }, disp := .acquire
                   execs := s.execs ++ [fn], started := s.started ++ [fn] } := by
  obtain ⟨h1, h2, h3, h4, h5, h6, h7, h8, h9, h10, h11, h12, h13, h14, h15, h16, h17⟩ := hi
  constructor <;>
    simp only [live, holding, hd, ht, pastWake, pastSignal, pastCancel, List.length_append,
      List.length_singleton, List.length_cons, List.length_nil, List.map_append,
      List.map_cons, List.map_nil] at * <;>
    try (first | assumption | omega | (simp [*]; done))
  case permits =>
    intro m hm
    have hp := h4 m hm
    simp [dispHolds] at hp ⊢; omega
  case idle => intro ho; have := h5 ho; simp at this
  case zero_cap =>
    intro m hm hc
    have hp := h4 m hm
    simp [dispHolds] at hp
    omega

theorem inv_dispExit {c : Bool} {s : Sys} (hi : Inv c s)
    (hd : s.disp = .locked) (hf : s.exitFlag = true) : Inv c { s with disp := .exited } := by
  obtain ⟨h1, h2, h3, h4, h5, h6, h7, h8, h9, h10, h11, h12, h13, h14, h15, h16, h17⟩ := hi
  constructor <;>
    simp only [live, holding, hd, pastWake, pastSignal, pastCancel] at * <;>
    try (first | assumption | omega | (simp [*]; done))
  case idle => intro ho; have := h5 ho; simp at this

theorem owner_waiting {c : Bool} {s : Sys} (hi : Inv c s) (hl : 0 < live s) :
    s.owner = .waiting := by
  have h5 := hi.idle
  have h7 := hi.drained
  have h1 := hi.wg_eq
  cases hown : s.owner <;> simp [hown, pastWake] at h5 h7 ⊢ <;> omega

theorem inv_taskGo {c : Bool} {s : Sys} (i : Nat) (child rest : Task) (hi : Inv c s)
    (he : s.execs[i]? = some (.go child rest)) :
    Inv c { s with g := Go s.g child, execs := s.execs.set i rest
                   enq := s.enq ++ [child] } := by
  obtain ⟨pre, post, e1, e2, -⟩ := getElem?_split he rest
  have hlen : 0 < s.execs.length := by rw [e1]; simp
  have ho : s.owner = .waiting := owner_waiting hi (by unfold live; omega)
  obtain ⟨h1, h2, h3, h4, h5, h6, h7, h8, h9, h10, h11, h12, h13, h14, h15, h16, h17⟩ := hi
  constructor <;>
    simp only [Go, ho, live, holding, pastWake, pastSignal, pastCancel, List.length_append,
      List.length_singleton, List.length_cons, List.length_nil, List.length_set] at * <;>
    try (first | assumption | omega | (simp [*]; done))
  case fifo => rw [← h3, List.append_assoc]
  case results =>
    rw [e2]
    rw [e1] at h12
    have := h12.append_right [child.result]
    simpa [Task.result] using this

theorem inv_taskRet {c : Bool} {s : Sys} (i : Nat) (e : Option String) (hi : Inv c s)
    (he : s.execs[i]? = some (.ret e)) :
    Inv c { s with g := (startTask s.g e).1, execs := s.execs.eraseIdx i
                   releasing := s.releasing + 1, outcomes := s.outcomes ++ [e]
                   cancelCalls := s.cancelCalls + (startTask s.g e).2 } := by
  obtain ⟨pre, post, e1, -, e3⟩ := getElem?_split he (.ret e)
  have hlen : (s.execs.eraseIdx i).length + 1 = s.execs.length := by rw [e3, e1]; simp; omega
  have ho : s.owner = .waiting := owner_waiting hi (by unfold live; omega)
  obtain ⟨h1, h2, h3, h4, h5, h6, h7, h8, h9, h10, h11, h12, h13, h14, h15, h16, h17⟩ := hi
  have hg : (startTask s.g e).1.wg = s.g.wg ∧ (startTask s.g e).1.sem = s.g.sem ∧
      (startTask s.g e).1.todo = s.g.todo ∧ (startTask s.g e).1.cancel = s.g.cancel := by
    unfold startTask
    cases e
    · simp
    · simp only []
      split <;> simp
  obtain ⟨g1, g2, g3, g4⟩ := hg
  have hff := firstFailure_append s.outcomes e
  have herr : (startTask s.g e).1.err = firstFailure (s.outcomes ++ [e]) ∧
      (startTask s.g e).1.errOnce = (startTask s.g e).1.err.isSome ∧
      s.cancelCalls + (startTask s.g e).2 =
        (if c = true ∧ (startTask s.g e).1.err.isSome = true then 1 else 0) := by
    simp only [ho, pastCancel] at h14
    rw [hff, ← h10]
    unfold startTask
    cases e with
    | none => 
      simp [h11, h14]
      cases s.g.err <;> simp
    | some x =>
      cases hb : s.g.errOnce
      · rw [hb] at h11
        have : s.g.err = none := by
          cases hh : s.g.err
          · rfl
          · rw [hh] at h11; simp at h11
        simp [this, h14, h13]
      · rw [hb] at h11
        obtain ⟨y, hy⟩ := Option.isSome_iff_exists.mp h11.symm
        simp [hy, h14, hb]
  obtain ⟨r1, r2, r3⟩ := herr
  constructor <;>
    simp only [g1, g2, g3, g4, ho, live, holding, pastWake, pastSignal, pastCancel,
      List.length_append, List.length_singleton, List.length_cons, List.length_nil] at * <;>
    try (first | assumption | omega | (simp [*]; done))
  case permits =>
    intro m hm
    have := h4 m hm
    omega
  case cancels => simpa using r3
  case results =>
    rw [e3]
    rw [e1] at h12
    refine List.Perm.trans ?_ h12
    simp only [List.map_append, List.map_cons, Task.result, List.append_assoc]
    refine List.Perm.append_left _ ?_
    simp only [List.singleton_append]
    exact (List.perm_middle).symm

theorem inv_release {c : Bool} {s : Sys} (g' : Group) (hi : Inv c s) (hr : 0 < s.releasing)
    (hg : semRecv s.g = some g') :
    Inv c { s with g := g', releasing := s.releasing - 1, finishing := s.finishing + 1 } := by
  have ho : s.owner = .waiting := owner_waiting hi (by unfold live; omega)
  obtain ⟨h1, h2, h3, h4, h5, h6, h7, h8, h9, h10, h11, h12, h13, h14, h15, h16, h17⟩ := hi
  simp only [semRecv] at hg
  split at hg
  · simp at hg; subst hg
    constructor <;>
      simp only [ho, live, holding, pastWake, pastSignal, pastCancel] at * <;>
      try (first | assumption | omega | (simp [*]; done))
  · rename_i m hm
    split at hg
    · simp at hg; subst hg
      have hp := h4 m hm
      constructor <;>
        simp only [ho, live, holding, pastWake, pastSignal, pastCancel] at * <;>
        try (first | assumption | omega | (simp [*]; done))
      case permits =>
        intro m' hm'
        simp at hm'; subst hm'
        simp; omega
      case zero_cap =>
        intro m' hm' hc
        simp at hm'; subst hm'
        exact h17 m hm hc
    · simp at hg

theorem inv_finish {c : Bool} {s : Sys} (g' : Group) (hi : Inv c s) (hr : 0 < s.finishing)
    (hg : wgDone s.g = some g') :
    Inv c { s with g := g', finishing := s.finishing - 1, finished := s.finished + 1 } := by
  have ho : s.owner = .waiting := owner_waiting hi (by unfold live; omega)
  obtain ⟨h1, h2, h3, h4, h5, h6, h7, h8, h9, h10, h11, h12, h13, h14, h15, h16, h17⟩ := hi
  simp only [wgDone] at hg
  split at hg
  · simp at hg
  · simp at hg; subst hg
    constructor <;>
      simp only [ho, live, holding, pastWake, pastSignal, pastCancel] at * <;>
      try (first | assumption | omega | (simp [*]; done))

theorem inv_step {c : Bool} {a : Action} {s s' : Sys} (hi : Inv c s) (h : step a s = some s') :
    Inv c s' := by
  cases a <;> simp only [step] at h
  case go fn =>
    split at h
    · simp at h; subst h; exact inv_go fn hi (by assumption)
    · simp at h
  case setLimit n =>
    split at h
    · split at h
      · simp at h; subst h; exact inv_setLimit n _ hi (by assumption) (by assumption)
      · simp at h
    · simp at h
  case wait =>
    split at h
    · simp at h; subst h; exact inv_wait hi (by assumption)
    · simp at h
  case wake =>
    split at h
    · rename_i hc; simp at h; subst h; exact inv_wake hi hc.1 hc.2
    · simp at h
  case waitCancel =>
    split at h
    · simp at h; subst h; exact inv_waitCancel hi (by assumption)
    · simp at h
  case signal =>
    split at h
    · simp at h; subst h; exact inv_signal hi (by assumption)
    · simp at h
  case waitReturn =>
    split at h
    · simp at h; subst h; exact inv_waitReturn hi (by assumption)
    · simp at h
  case acquire =>
    split at h
    · split at h
      · simp at h; subst h; exact inv_acquire _ hi (by assumption) (by assumption)
      · simp at h
    · simp at h
  case handoff =>
    split at h
    · split at h
      · rename_i hc; simp at h; subst h; exact inv_handoff _ hi (by assumption) hc.1 hc.2.2
      · simp at h
    · simp at h
  case dispatch =>
    split at h
    · rename_i hc
      split at h
      · simp at h
      · simp at h; subst h; exact inv_dispatch _ _ hi hc.1 hc.2 (by assumption)
    · simp at h
  case dispExit =>
    split at h
    · rename_i hc; simp at h; subst h; exact inv_dispExit hi hc.1 hc.2
    · simp at h
  case taskGo i =>
    split at h
    · simp at h; subst h; exact inv_taskGo i _ _ hi (by assumption)
    · simp at h
  case taskRet i =>
    split at h
    · simp at h; subst h; exact inv_taskRet i _ hi (by assumption)
    · simp at h
  case release =>
    split at h
    · split at h
      · simp at h; subst h; exact inv_release _ hi (by assumption) (by assumption)
      · simp at h
    · simp at h
  case finish =>
    split at h
    · split at h
      · simp at h; subst h; exact inv_finish _ hi (by assumption) (by assumption)
      · simp at h
    · simp at h

theorem inv_run {c : Bool} (acts : List Action) {s s' : Sys} (hi : Inv c s)
    (h : run acts s = some s') : Inv c s' := by
  induction acts generalizing s with
  | nil => simp [run] at h; subst h; exact hi
  | cons a as ih =>
    simp only [run] at h
    cases hs : step a s with
    | none => simp [hs] at h
    | some s1 =>
      simp [hs] at h
      exact ih (inv_step hi hs) h

theorem inv_reach {c : Bool} {acts : List Action} {s : Sys}
    (h : run acts (init c) = some s) : Inv c s :=
  inv_run acts (inv_init c) h

/-! ## Consequences of the invariant -/

theorem release_finish_done {s s1 s2 : Sys} (h1 : step .release s = some s1)
    (h2 : step .finish s1 = some s2) : done s.g = some s2.g := by
  simp only [step] at h1 h2
  split at h1
  · split at h1
    · rename_i g1 hg1
      simp at h1; subst h1
      split at h2
      · split at h2
        · rename_i g2 hg2
          simp at h2; subst h2
          simp only [done, hg1, Option.some_bind]
          exact hg2
        · simp at h2
      · simp at h2
    · simp at h1
  · simp at h1

theorem firstFailure_eq_none (l : List (Option String)) :
    firstFailure l = none ↔ ∀ o ∈ l, o = none := by
  induction l with
  | nil => simp [firstFailure]
  | cons a l ih => cases a <;> simp [firstFailure, ih]

theorem quiescent {c : Bool} {s : Sys} (hi : Inv c s) (hw : s.g.wg = 0) :
    s.g.todo = [] ∧ s.execs = [] ∧ s.releasing = 0 ∧ s.finishing = 0 := by
  have h1 := hi.wg_eq
  rw [hw] at h1
  simp only [live] at h1
  refine ⟨List.length_eq_zero.mp (by omega), List.length_eq_zero.mp (by omega), by omega,
    by omega⟩

theorem err_frame {a : Action} {s s' : Sys} (h : step a s = some s')
    (ha : ∀ i, a ≠ .taskRet i) : s'.g.err = s.g.err := by
  cases a <;> simp only [step] at h
  case setLimit n =>
    split at h
    · split at h
      · rename_i g' hg
        simp at h; subst h
        simp only [SetLimit] at hg
        split at hg
        · simp at hg; subst hg; rfl
        · split at hg
          · simp at hg
          · simp at hg; subst hg; rfl
      · simp at h
    · simp at h
  case acquire =>
    split at h
    · split at h
      · rename_i g' hg
        simp at h; subst h
        simp only [semSend] at hg
        split at hg
        · simp at hg; subst hg; rfl
        · split at hg
          · simp at hg; subst hg; rfl
          · simp at hg
      · simp at h
    · simp at h
  case release =>
    split at h
    · split at h
      · rename_i g' hg
        simp at h; subst h
        simp only [semRecv] at hg
        split at hg
        · simp at hg; subst hg; rfl
        · split at hg
          · simp at hg; subst hg; rfl
          · simp at hg
      · simp at h
    · simp at h
  case finish =>
    split at h
    · split at h
      · rename_i g' hg
        simp at h; subst h
        simp only [wgDone] at hg
        split at hg
        · simp at hg
        · simp at hg; subst hg; rfl
      · simp at h
    · simp at h
  case taskRet i => exact absurd rfl (ha i)
  all_goals
    first
    | (split at h
       · split at h
         · simp at h
         · simp at h; subst h; simp [Go]
       · simp at h)
    | (split at h
       · split at h
         · simp at h; subst h; simp [Go]
         · simp at h
       · simp at h)
    | (split at h
       · simp at h; subst h; simp [Go]
       · simp at h)

theorem err_step {c : Bool} {a : Action} {s s' : Sys} {e : String} (hi : Inv c s)
    (h : step a s = some s') (he : s.g.err = some e) : s'.g.err = some e := by
  have ho : s.g.errOnce = true := by rw [hi.once, he]; rfl
  by_cases ha : ∃ i, a = .taskRet i
  · obtain ⟨i, rfl⟩ := ha
    simp only [step] at h
    split at h
    · rename_i x hx
      simp at h; subst h
      cases x <;> simp [startTask, ho, he]
    · simp at h
  · rw [err_frame h (fun i hi' => ha ⟨i, hi'⟩)]
    exact he

theorem err_run {c : Bool} (acts : List Action) {s s' : Sys} {e : String} (hi : Inv c s)
    (h : run acts s = some s') (he : s.g.err = some e) : s'.g.err = some e := by
  induction acts generalizing s with
  | nil => simp [run] at h; subst h; exact he
  | cons a as ih =>
    simp only [run] at h
    cases hs : step a s with
    | none => simp [hs] at h
    | some s1 =>
      simp [hs] at h
      exact ih (inv_step hi hs) h (err_step hi hs he)

theorem setLimit_limitOf {s s' : Sys} {n : Int} (h : step (.setLimit n) s = some s')
    (hn : 0 ≤ n) : limitOf s' = some n.toNat := by
  simp only [step] at h
  split at h
  · split at h
    · rename_i g' hg
      simp at h; subst h
      simp only [SetLimit] at hg
      rw [if_neg (by omega)] at hg
      split at hg
      · simp at hg
      · simp at hg; subst hg; simp [limitOf]
    · simp at h
  · simp at h

theorem limitOf_step {a : Action} {s s' : Sys} (h : step a s = some s')
    (ha : ∀ k, a ≠ .setLimit k) : limitOf s' = limitOf s := by
  cases a <;> simp only [step] at h
  case setLimit n => exact absurd rfl (ha n)
  case acquire =>
    split at h
    · split at h
      · rename_i g' hg
        simp at h; subst h
        simp only [semSend] at hg
        split at hg
        · simp at hg; subst hg; rfl
        · rename_i m hm
          split at hg
          · simp at hg; subst hg; simp [limitOf, hm]
          · simp at hg
      · simp at h
    · simp at h
  case release =>
    split at h
    · split at h
      · rename_i g' hg
        simp at h; subst h
        simp only [semRecv] at hg
        split at hg
        · simp at hg; subst hg; rfl
        · rename_i m hm
          split at hg
          · simp at hg; subst hg; simp [limitOf, hm]
          · simp at hg
      · simp at h
    · simp at h
  case finish =>
    split at h
    · split at h
      · rename_i g' hg
        simp at h; subst h
        simp only [wgDone] at hg
        split at hg
        · simp at hg
        · simp at hg; subst hg; rfl
      · simp at h
    · simp at h
  case taskRet i =>
    split at h
    · rename_i x hx
      simp at h; subst h
      cases x
      · simp [startTask, limitOf]
      · simp only [startTask, limitOf]
        split <;> rfl
    · simp at h
  all_goals
    first
    | (split at h
       · split at h
         · simp at h
         · simp at h; subst h; simp [Go, limitOf]
       · simp at h)
    | (split at h
       · split at h
         · simp at h; subst h; simp [Go, limitOf]
         · simp at h
       · simp at h)
    | (split at h
       · simp at h; subst h; simp [Go, limitOf]
       · simp at h)

theorem limitOf_run (acts : List Action) {s s' : Sys} (h : run acts s = some s')
    (ha : ∀ k, Action.setLimit k ∉ acts) : limitOf s' = limitOf s := by
  induction acts generalizing s with
  | nil => simp [run] at h; subst h; rfl
  | cons a as ih =>
    simp only [run] at h
    cases hs : step a s with
    | none => simp [hs] at h
    | some s1 =>
      simp [hs] at h
      rw [ih h (fun k hk => ha k (List.mem_cons_of_mem _ hk))]
      exact limitOf_step hs (fun k hk => ha k (by rw [hk]; exact List.mem_cons_self _ _))

theorem run_append (l1 l2 : List Action) (s : Sys) :
    run (l1 ++ l2) s = (run l1 s).bind (run l2) := by
  induction l1 generalizing s with
  | nil => simp [run]
  | cons a as ih =>
    simp only [List.cons_append, run]
    cases step a s with
    | none => simp
    | some s1 => simp [ih]

theorem worker_enabled {c : Bool} {s : Sys} (hi : Inv c s) (ho : s.owner ≠ .idle)
    (hw : 0 < s.g.wg) (hlim : limitOf s ≠ some 0) :
    ∃ a s', a.byWorker = true ∧ step a s = some s' := by
  have h1 := hi.wg_eq
  have hown : s.owner = .waiting := by
    have h7 := hi.drained
    cases hh : s.owner <;> simp [hh, pastWake] at h7 ho ⊢ <;> omega
  have hflag : s.exitFlag = false := by rw [hi.flag, hown]; rfl
  have hd1 : s.disp ≠ .notStarted := fun hd => ho (hi.spawned hd)
  have hd2 : s.disp ≠ .exited := fun hd => by
    have := hi.exited hd
    rw [hflag] at this
    exact absurd this (by simp)
  suffices hex : ∃ a, a.byWorker = true ∧ (step a s).isSome = true by
    obtain ⟨a, ha, hs⟩ := hex
    obtain ⟨s', hs'⟩ := Option.isSome_iff_exists.mp hs
    exact ⟨a, s', ha, hs'⟩
  by_cases he : s.execs = []
  · by_cases hr : s.releasing = 0
    · by_cases hfin : s.finishing = 0
      · have htodo : 0 < s.g.todo.length := by
          simp only [live, he, hr, hfin, List.length_nil] at h1
          omega
        cases hd : s.disp with
        | notStarted => exact absurd hd hd1
        | exited => exact absurd hd hd2
        | acquire =>
          cases hm : s.g.sem with
          | none => exact ⟨.acquire, rfl, by simp [step, hd, semSend, hm]⟩
          | some m =>
            have hp := hi.permits m hm
            simp only [holding, he, hr, hd, dispHolds, List.length_nil] at hp
            have hc : m.cap ≠ 0 := by
              intro hc
              apply hlim
              simp [limitOf, hm, hc]
            have hlt : m.len < m.cap := by omega
            exact ⟨.acquire, rfl, by simp [step, hd, semSend, hm, hlt]⟩
        | locked =>
          cases ht : s.g.todo with
          | nil => simp [ht] at htodo
          | cons fn rest => exact ⟨.dispatch, rfl, by simp [step, hd, hflag, ht]⟩
      · have hwg : ¬ (s.g.wg - 1 < 0) := by omega
        have hpos : 0 < s.finishing := by omega
        exact ⟨.finish, rfl, by simp [step, wgDone, hpos, hwg]⟩
    · have hpos : 0 < s.releasing := by omega
      cases hm : s.g.sem with
      | none => exact ⟨.release, rfl, by simp [step, semRecv, hm, hpos]⟩
      | some m =>
        have hp := hi.permits m hm
        simp only [holding] at hp
        have hlen : 0 < m.len := by omega
        exact ⟨.release, rfl, by simp [step, semRecv, hm, hpos, hlen]⟩
  · cases hx : s.execs with
    | nil => exact absurd hx he
    | cons t ts =>
      cases t with
      | ret e => exact ⟨.taskRet 0, rfl, by simp [step, hx]⟩
      | go child rest => exact ⟨.taskGo 0, rfl, by simp [step, hx]⟩

theorem sem_moves {g g' : Group} (h : semSend g = some g' ∨ semRecv g = some g') :
    g'.todo = g.todo := by
  rcases h with h | h
  · simp only [semSend] at h
    split at h
    · simp at h; subst h; rfl
    · split at h
      · simp at h; subst h; rfl
      · simp at h
  · simp only [semRecv] at h
    split at h
    · simp at h; subst h; rfl
    · split at h
      · simp at h; subst h; rfl
      · simp at h

theorem worker_step {a : Action} {s s' : Sys} (h : step a s = some s')
    (ha : a.byWorker = true) : work s' < work s ∧ s'.owner = s.owner := by
  cases a <;> simp [Action.byWorker] at ha <;> simp only [step] at h
  case acquire =>
    split at h
    · rename_i hd
      split at h
      · rename_i g' hg
        simp at h; subst h
        have := sem_moves (Or.inl hg)
        simp [work, hd, this]
      · simp at h
    · simp at h
  case handoff =>
    split at h
    · split at h
      · rename_i hc
        simp at h; subst h
        simp [work, hc.1]
        omega
      · simp at h
    · simp at h
  case dispatch =>
    split at h
    · rename_i hc
      split at h
      · simp at h
      · rename_i fn rest ht
        simp at h; subst h
        simp [work, hc.1, ht]
        omega
    · simp at h
  case taskGo i =>
    split at h
    · rename_i child rest he
      simp at h; subst h
      obtain ⟨pre, post, e1, e2, -⟩ := getElem?_split he rest
      simp only [work, Go, e2]
      rw [e1]
      simp [Task.cost]
      omega
    · simp at h
  case taskRet i =>
    split at h
    · rename_i e he
      simp at h; subst h
      obtain ⟨pre, post, e1, -, e3⟩ := getElem?_split he (.ret e)
      have hg : (startTask s.g e).1.todo = s.g.todo := by
        unfold startTask
        cases e
        · simp
        · simp only []
          split <;> simp
      simp only [work, e3, hg]
      rw [e1]
      simp [Task.cost]
      omega
    · simp at h
  case release =>
    split at h
    · split at h
      · rename_i hpos g' hg
        simp at h; subst h
        have := sem_moves (Or.inr hg)
        simp [work, this]
        omega
      · simp at h
    · simp at h
  case finish =>
    split at h
    · split at h
      · rename_i hpos g' hg
        simp at h; subst h
        simp only [wgDone] at hg
        split at hg
        · simp at hg
        · simp at hg; subst hg
          simp [work]
          omega
      · simp at h
    · simp at h

theorem can_drain {c : Bool} (n : Nat) {s : Sys} (hi : Inv c s) (hn : work s ≤ n)
    (ho : s.owner = .waiting) (hlim : limitOf s ≠ some 0) :
    ∃ more s', run more s = some s' ∧ s'.owner = .waiting ∧ s'.g.wg = 0 := by
  induction n generalizing s with
  | zero =>
    by_cases hw : s.g.wg = 0
    · exact ⟨[], s, rfl, ho, hw⟩
    · have hpos : 0 < s.g.wg := by have := hi.wg_eq; omega
      obtain ⟨a, s1, ha, hs⟩ := worker_enabled hi (by rw [ho]; simp) hpos hlim
      have := (worker_step hs ha).1
      omega
  | succ n ih =>
    by_cases hw : s.g.wg = 0
    · exact ⟨[], s, rfl, ho, hw⟩
    · have hpos : 0 < s.g.wg := by have := hi.wg_eq; omega
      obtain ⟨a, s1, ha, hs⟩ := worker_enabled hi (by rw [ho]; simp) hpos hlim
      obtain ⟨hlt, hown⟩ := worker_step hs ha
      have hl1 : limitOf s1 = limitOf s :=
        limitOf_step hs (fun k hk => by rw [hk] at ha; simp [Action.byWorker] at ha)
      obtain ⟨more, s', hr, ho', hw'⟩ :=
        ih (inv_step hi hs) (by omega) (by rw [hown, ho]) (by rw [hl1]; exact hlim)
      exact ⟨a :: more, s', by simp [run, hs, hr], ho', hw'⟩

theorem leave_wait {s : Sys} :
    (s.owner = .waiting → s.g.wg = 0 →
      run [.wake, .waitCancel, .signal, .waitReturn] s =
        some { s with owner := .returned s.g.err, exitFlag := true
                      cancelCalls := s.cancelCalls + (if s.g.cancel then 1 else 0) }) ∧
    (s.owner = .woke →
      run [.waitCancel, .signal, .waitReturn] s =
        some { s with owner := .returned s.g.err, exitFlag := true
                      cancelCalls := s.cancelCalls + (if s.g.cancel then 1 else 0) }) ∧
    (s.owner = .cancelled →
      run [.signal, .waitReturn] s =
        some { s with owner := .returned s.g.err, exitFlag := true }) ∧
    (s.owner = .signalled →
      run [.waitReturn] s = some { s with owner := .returned s.g.err }) := by
  refine ⟨?_, ?_, ?_, ?_⟩
  · intro ho hw
    simp [run, step, ho, hw]
  · intro ho
    simp [run, step, ho]
  · intro ho
    simp [run, step, ho]
  · intro ho
    simp [run, step, ho]

theorem can_return {c : Bool} {s : Sys} (hi : Inv c s) (hlim : limitOf s ≠ some 0) :
    ∃ more s' v, run more s = some s' ∧ s'.owner = .returned v := by
  cases ho : s.owner with
  | idle =>
    have hs : step .wait s =
        some { s with exitFlag := false, owner := .waiting, disp := .acquire } := by
      simp [step, ho]
    obtain ⟨more, s1, hr, ho1, hw1⟩ :=
      can_drain (work _) (inv_step hi hs) (le_refl _) rfl (by simpa [limitOf] using hlim)
    have hfin := (leave_wait (s := s1)).1 ho1 hw1
    rw [← Option.some_bind s1 (run _), ← hr, ← run_append, ← Option.some_bind _ (run _),
      ← hs] at hfin
    exact ⟨Action.wait :: (more ++ [Action.wake, .waitCancel, .signal, .waitReturn]), _, _,
      hfin, rfl⟩
  | waiting =>
    obtain ⟨more, s1, hr, ho1, hw1⟩ := can_drain (work s) hi (le_refl _) ho hlim
    have hfin := (leave_wait (s := s1)).1 ho1 hw1
    rw [← Option.some_bind s1 (run _), ← hr, ← run_append] at hfin
    exact ⟨more ++ [.wake, .waitCancel, .signal, .waitReturn], _, _, hfin, rfl⟩
  | woke => exact ⟨_, _, s.g.err, leave_wait.2.1 ho, rfl⟩
  | cancelled => exact ⟨_, _, s.g.err, leave_wait.2.2.1 ho, rfl⟩
  | signalled => exact ⟨_, _, s.g.err, leave_wait.2.2.2 ho, rfl⟩
  | returned v => exact ⟨[], s, v, rfl, ho⟩

/-! ## The claims -/

/-- C1: in every state reached from a fresh group the recorded error is the first failure
in completion order, and once recorded no later step changes it; when `Wait` has
returned `v`, every submitted task has run to completion (the completion log is a
permutation of the results of the submitted tasks), `v` is the first failure of that log,
and `v` is success exactly when every submitted task returned success.  Unless the limit
is 0, every reachable state has a continuation in which `Wait` returns. -/
theorem wait_returns_first_failure (c : Bool) (acts : List Action) (s : Sys)
    (h : run acts (init c) = some s) :
    s.g.err = firstFailure s.outcomes ∧
    (∀ e more s', s.g.err = some e → run more s = some s' → s'.g.err = some e) ∧
    (∀ v, s.owner = .returned v →
      v = firstFailure s.outcomes ∧
      s.outcomes.Perm (s.enq.map Task.result) ∧
      (v = none ↔ ∀ t ∈ s.enq, t.result = none)) ∧
    (limitOf s ≠ some 0 → ∃ more s' v, run more s = some s' ∧ s'.owner = .returned v) := by
  have hi := inv_reach h
  refine ⟨hi.err_eq, fun e more s' he hr => err_run more hi hr he, ?_, can_return hi⟩
  intro v hv
  have hw : s.g.wg = 0 := hi.drained (by rw [hv]; rfl)
  obtain ⟨q1, q2, -, -⟩ := quiescent hi hw
  have hp := hi.results
  rw [q1, q2] at hp
  simp only [List.map_nil, List.append_nil] at hp
  have hv' : v = firstFailure s.outcomes := by rw [hi.ret v hv, hi.err_eq]
  refine ⟨hv', hp, ?_⟩
  rw [hv', firstFailure_eq_none]
  constructor
  · intro hall t ht
    exact hall _ (hp.mem_iff.mpr (List.mem_map_of_mem _ ht))
  · intro hall o ho
    obtain ⟨t, ht, rfl⟩ := List.mem_map.mp (hp.mem_iff.mp ho)
    exact hall t ht

/-- C1 at the three tasks success, failure "boom", success without a limit: `Wait`
returns failure "boom" and all three tasks have completed. -/
theorem wait_returns_first_failure_witness :
    run boomSchedule (init false) = some (after false boomSchedule) ∧
    (after false boomSchedule).owner = .returned (some "boom") ∧
    (after false boomSchedule).outcomes = [some "boom", none, none] ∧
    (some "boom" = firstFailure (after false boomSchedule).outcomes ∧
      (after false boomSchedule).outcomes.Perm
        ((after false boomSchedule).enq.map Task.result) ∧
      (some "boom" = none ↔ ∀ t ∈ (after false boomSchedule).enq, t.result = none)) :=
  ⟨by decide, by decide, by decide,
    (wait_returns_first_failure false boomSchedule (after false boomSchedule)
      (by decide)).2.2.1 (some "boom") (by decide)⟩

/-- C2: in every reachable state the WaitGroup counter is non-negative, equals the number
of `Go` calls minus the number of `wg.Done()` calls, equals the number of queued tasks plus
the number of runners that have not yet called `wg.Done()`, and is zero exactly when every
submitted task has finished; `wg.Wait()` can return only in such a state, and once the
owner is past it every submitted task has finished. -/
theorem outstanding_counts_unfinished (c : Bool) (acts : List Action) (s : Sys)
    (h : run acts (init c) = some s) :
    0 ≤ s.g.wg ∧
    s.g.wg = (s.enq.length : Int) - (s.finished : Int) ∧
    s.g.wg = ((s.g.todo.length + live s : Nat) : Int) ∧
    (s.g.wg = 0 ↔ s.finished = s.enq.length) ∧
    (∀ s', step .wake s = some s' → s.finished = s.enq.length) ∧
    (pastWake s.owner = true →
      s.finished = s.enq.length ∧ s.g.todo = [] ∧ live s = 0) := by
  have hi := inv_reach h
  have h1 := hi.wg_eq
  have h2 := hi.enq_len
  refine ⟨by omega, by omega, h1, by omega, ?_, ?_⟩
  · intro s' hs
    simp only [step] at hs
    split at hs
    · rename_i hc
      have := hc.2
      omega
    · simp at hs
  · intro hp
    have hw := hi.drained hp
    obtain ⟨q1, q2, q3, q4⟩ := quiescent hi hw
    refine ⟨by omega, q1, ?_⟩
    simp [live, q2, q3, q4]

/-- C2 at a parent that has submitted a child and sits inside `done`: the counter is 2, one
task is queued and one runner has not yet called `wg.Done()`. -/
theorem outstanding_counts_unfinished_witness :
    run nestedSchedule (init false) = some (after false nestedSchedule) ∧
    (after false nestedSchedule).g.wg = 2 ∧
    (after false nestedSchedule).g.todo.length = 1 ∧
    live (after false nestedSchedule) = 1 ∧
    (after false nestedSchedule).g.wg =
      (((after false nestedSchedule).g.todo.length + live (after false nestedSchedule) : Nat)
        : Int) :=
  ⟨by decide, by decide, by decide, by decide,
    (outstanding_counts_unfinished false nestedSchedule (after false nestedSchedule)
      (by decide)).2.2.1⟩

/-- C3: when the last `SetLimit` of a run was `SetLimit(n)` with `n ≥ 0` (so in particular
for every limit `n ≥ 1`; the call can only precede `Wait`), then in every state reached
afterwards the number of started tasks whose function has not returned, and even the
number of started tasks that have not yet given back their permit, is at most `n`. -/
theorem running_within_limit (c : Bool) (pre post : List Action) (n : Int) (s0 s1 s : Sys)
    (hn : 0 ≤ n) (h0 : run pre (init c) = some s0) (h1 : step (.setLimit n) s0 = some s1)
    (h2 : run post s1 = some s) (hlast : ∀ k, Action.setLimit k ∉ post) :
    s.execs.length ≤ n.toNat ∧ holding s ≤ n.toNat := by
  have hi0 := inv_reach h0
  have hi1 := inv_step hi0 h1
  have hi := inv_run post hi1 h2
  have hl : limitOf s = some n.toNat := by
    rw [limitOf_run post h2 hlast]
    exact setLimit_limitOf h1 hn
  simp only [limitOf] at hl
  cases hm : s.g.sem with
  | none => simp [hm] at hl
  | some m =>
    simp [hm] at hl
    have := hi.permits m hm
    simp only [holding] at this ⊢
    omega

/-- C3 at limit 2 with four submitted tasks: two run, two stay queued, and the
dispatcher's next send on `sem` blocks. -/
theorem running_within_limit_witness :
    step (.setLimit 2) (init false) = some (after false [.setLimit 2]) ∧
    run fourSchedule.tail (after false [.setLimit 2]) = some (after false fourSchedule) ∧
    (after false fourSchedule).g.todo.length = 2 ∧
    step .acquire (after false fourSchedule) = none ∧
    ((after false fourSchedule).execs.length ≤ (2 : Int).toNat ∧
      holding (after false fourSchedule) ≤ (2 : Int).toNat) :=
  ⟨by decide, by decide, by decide, by decide,
    running_within_limit false [] fourSchedule.tail 2 (init false) (after false [.setLimit 2])
      (after false fourSchedule) (by decide) (by decide) (by decide) (by decide)
      (by intro k hk; simp [fourSchedule] at hk)⟩

/-- C4: in every reachable state the tasks the dispatcher has started, in the order it
started them, followed by the pending queue, are exactly the tasks passed to `Go`, in the
order of the `Go` calls; so the started tasks are an initial segment of the enqueue
order. -/
theorem dispatch_order_is_enqueue_order (c : Bool) (acts : List Action) (s : Sys)
    (h : run acts (init c) = some s) :
    s.started ++ s.g.todo = s.enq ∧ s.started <+: s.enq :=
  ⟨(inv_reach h).fifo, ⟨s.g.todo, (inv_reach h).fifo⟩⟩

/-- C4 at two tasks of which the first, once started, has submitted a third: the started
task followed by the queue is the enqueue order. -/
theorem dispatch_order_is_enqueue_order_witness :
    run fifoSchedule (init false) = some (after false fifoSchedule) ∧
    (after false fifoSchedule).started = [.go (.ret (some "c")) (.ret none)] ∧
    (after false fifoSchedule).g.todo = [.ret (some "b"), .ret (some "c")] ∧
    ((after false fifoSchedule).started ++ (after false fifoSchedule).g.todo =
        (after false fifoSchedule).enq ∧
      (after false fifoSchedule).started <+: (after false fifoSchedule).enq) :=
  ⟨by decide, by decide, by decide,
    dispatch_order_is_enqueue_order false fifoSchedule (after false fifoSchedule) (by decide)⟩

/-- C6: for a group made by `WithContext`, in every reachable state: a step that records
the first failure also calls `cancel`; whenever a failure is recorded `cancel` has been
called at least once; and when `Wait` has returned `cancel` has been called at least once,
whatever the outcome. -/
theorem cancel_on_first_failure_and_on_return (acts : List Action) (s : Sys)
    (h : run acts (init true) = some s) :
    (∀ a s', step a s = some s' → s.g.err = none → s'.g.err ≠ none →
      s'.cancelCalls = s.cancelCalls + 1) ∧
    (s.g.err ≠ none → 1 ≤ s.cancelCalls) ∧
    (∀ v, s.owner = .returned v → 1 ≤ s.cancelCalls) := by
  have hi := inv_reach h
  have hc := hi.cancels
  refine ⟨?_, ?_, ?_⟩
  · intro a s' hs hn hs'
    by_cases ha : ∃ i, a = .taskRet i
    · obtain ⟨i, rfl⟩ := ha
      have ho : s.g.errOnce = false := by rw [hi.once, hn]; rfl
      simp only [step] at hs
      split at hs
      · rename_i x hx
        simp at hs; subst hs
        cases x with
        | none => simp [startTask, hn] at hs'
        | some e => simp [startTask, ho, hi.cancel_eq]
      · simp at hs
    · exact absurd (by rw [err_frame hs (fun i hi' => ha ⟨i, hi'⟩)]; exact hn) hs'
  · intro he
    have : s.g.err.isSome = true := by
      cases hh : s.g.err with
      | none => exact absurd hh he
      | some x => rfl
    simp [this] at hc
    omega
  · intro v hv
    simp [hv, pastCancel] at hc
    omega

/-- C6 at one failing task, right after its failure is recorded (one call of `cancel`), and
at one succeeding task after `Wait` has returned (one call of `cancel`). -/
theorem cancel_on_first_failure_and_on_return_witness :
    run failSchedule (init true) = some (after true failSchedule) ∧
    (after true failSchedule).g.err = some "boom" ∧
    (after true failSchedule).cancelCalls = 1 ∧
    run okFullSchedule (init true) = some (after true okFullSchedule) ∧
    (after true okFullSchedule).owner = .returned none ∧
    1 ≤ (after true failSchedule).cancelCalls ∧
    1 ≤ (after true okFullSchedule).cancelCalls :=
  ⟨by decide, by decide, by decide, by decide, by decide,
    (cancel_on_first_failure_and_on_return failSchedule (after true failSchedule)
      (by decide)).2.1 (by decide),
    (cancel_on_first_failure_and_on_return okFullSchedule (after true okFullSchedule)
      (by decide)).2.2 none (by decide)⟩

/-- C7 as stated fails: with `WithContext` and one failing task, `cancel` has been called
twice when `Wait` returns, once by the failing task and once by `Wait`. -/
theorem cancel_called_twice :
    run failFullSchedule (init true) = some (after true failFullSchedule) ∧
    (after true failFullSchedule).owner = .returned (some "boom") ∧
    (after true failSchedule).cancelCalls = 1 ∧
    (after true failFullSchedule).cancelCalls = 2 ∧
    ¬ (after true failFullSchedule).cancelCalls ≤ 1 :=
  ⟨by decide, by decide, by decide, by decide, by decide⟩

/-- C7, amended: in every reachable state the number of calls of `cancel` is one for the
first recorded failure (none for later failures) plus one for `Wait` once it is past its
`if s.cancel != nil` statement, both only when the group has a cancel function; so it is at
most two, and when `Wait` has returned on a group made by `WithContext` it is one if no
task failed and two if some task failed. -/
theorem cancel_calls_accounted (c : Bool) (acts : List Action) (s : Sys)
    (h : run acts (init c) = some s) :
    s.cancelCalls =
      (if c = true ∧ s.g.err.isSome = true then 1 else 0) +
      (if c = true ∧ pastCancel s.owner = true then 1 else 0) ∧
    s.cancelCalls ≤ 2 ∧
    (∀ v, s.owner = .returned v → c = true →
      s.cancelCalls = if v.isSome = true then 2 else 1) := by
  have hi := inv_reach h
  have hc := hi.cancels
  refine ⟨hc, ?_, ?_⟩
  · rw [hc]
    split <;> split <;> omega
  · intro v hv hct
    rw [hc, hi.ret v hv]
    simp only [hv, pastCancel, hct, true_and]
    split <;> simp

/-- C7, amended, at one succeeding task run through the return of `Wait` with
`WithContext`: `cancel` has been called exactly once. -/
theorem cancel_calls_accounted_witness :
    run okFullSchedule (init true) = some (after true okFullSchedule) ∧
    (after true okFullSchedule).owner = .returned none ∧
    (after true okFullSchedule).cancelCalls =
      (if (none : Option String).isSome = true then 2 else 1) :=
  ⟨by decide, by decide,
    (cancel_calls_accounted true okFullSchedule (after true okFullSchedule) (by decide)).2.2
      none (by decide) rfl⟩

/-- C9: with a limit of at least 1, in every reachable state in which `Wait` has set
`exitFlag`, every task has finished, and the dispatcher takes a permit before it looks at
the flag and keeps it: at its send on `sem` no permit is held and the send goes through, at
its critical section one permit is held and it returns without a receive, and once it has
returned no runner is left while `len(sem)` is 1. -/
theorem dispatcher_keeps_permit (c : Bool) (acts : List Action) (s : Sys) (m : Sem)
    (h : run acts (init c) = some s) (hm : s.g.sem = some m) (hcap : 1 ≤ m.cap)
    (hf : s.exitFlag = true) :
    (live s = 0 ∧ s.g.todo = []) ∧
    (s.disp = .acquire ∨ s.disp = .locked ∨ s.disp = .exited) ∧
    (s.disp = .acquire → m.len = 0 ∧
      step .acquire s =
        some { s with g := { s.g with sem := some { m with len := 1 } }, disp := .locked }) ∧
    (s.disp = .locked → m.len = 1 ∧ step .dispExit s = some { s with disp := .exited }) ∧
    (s.disp = .exited → live s = 0 ∧ m.len = 1) := by
  have hi := inv_reach h
  have hflag := hi.flag
  rw [hf] at hflag
  have hpw : pastWake s.owner = true := by
    cases ho : s.owner <;> simp [ho, pastSignal, pastWake] at hflag ⊢
  have hw := hi.drained hpw
  obtain ⟨q1, q2, q3, q4⟩ := quiescent hi hw
  have hl : live s = 0 := by simp [live, q2, q3, q4]
  have hp := hi.permits m hm
  simp only [holding, q2, q3, List.length_nil] at hp
  refine ⟨⟨hl, q1⟩, ?_, ?_, ?_, ?_⟩
  · cases hd : s.disp
    · have := hi.spawned hd
      rw [this] at hpw
      simp [pastWake] at hpw
    · simp
    · simp
    · simp
  · intro hd
    rw [hd] at hp
    simp only [dispHolds] at hp
    have h0 : m.len = 0 := by omega
    refine ⟨h0, ?_⟩
    have hpos : 0 < m.cap := by omega
    have hm' : m = { cap := m.cap, len := 0 } := by cases m; simp_all
    rw [hm'] at hm
    simp [step, hd, semSend, hm, hpos]
  · intro hd
    rw [hd] at hp
    simp only [dispHolds] at hp
    refine ⟨by omega, ?_⟩
    simp [step, hd, hf]
  · intro hd
    rw [hd] at hp
    simp only [dispHolds] at hp
    exact ⟨hl, by omega⟩

/-- C9 at limit 1 and one task, after `Wait` has returned and the dispatcher has exited:
nothing runs, and one permit is still held. -/
theorem dispatcher_keeps_permit_witness :
    run leakSchedule (init false) = some (after false leakSchedule) ∧
    (after false leakSchedule).g.sem = some { cap := 1, len := 1 } ∧
    (after false leakSchedule).disp = .exited ∧
    (live (after false leakSchedule) = 0 ∧ ({ cap := 1, len := 1 } : Sem).len = 1) :=
  ⟨by decide, by decide, by decide,
    (dispatcher_keeps_permit false leakSchedule (after false leakSchedule)
      { cap := 1, len := 1 } (by decide) (by decide) (by decide) (by decide)).2.2.2.2
      (by decide)⟩

/-- C10: in every state reached after `Wait` was entered whose WaitGroup counter is
positive: if the group is unlimited or its limit is at least 1, some step of the dispatcher
or of a runner is enabled; if its limit is 0, no task has been started, no runner exists,
no step at all is enabled, and whatever is run from there leaves the counter positive. -/
theorem progress_unless_limit_zero (c : Bool) (acts : List Action) (s : Sys)
    (h : run acts (init c) = some s) (ho : s.owner ≠ .idle) (hw : 0 < s.g.wg) :
    (limitOf s ≠ some 0 → ∃ a s', a.byWorker = true ∧ step a s = some s') ∧
    (limitOf s = some 0 →
      s.started = [] ∧ live s = 0 ∧ (∀ a, step a s = none) ∧
      ∀ more s', run more s = some s' → 0 < s'.g.wg ∧ s'.started = []) := by
  have hi := inv_reach h
  have h1 := hi.wg_eq
  have hown : s.owner = .waiting := by
    have h7 := hi.drained
    cases hh : s.owner <;> simp [hh, pastWake] at h7 ho ⊢ <;> omega
  have hflag : s.exitFlag = false := by rw [hi.flag, hown]; rfl
  have hd1 : s.disp ≠ .notStarted := fun hd => ho (hi.spawned hd)
  have hd2 : s.disp ≠ .exited := fun hd => by
    have := hi.exited hd
    rw [hflag] at this
    exact absurd this (by simp)
  constructor
  · exact worker_enabled hi ho hw
  · intro hlim
    simp only [limitOf] at hlim
    cases hm : s.g.sem with
    | none => simp [hm] at hlim
    | some m =>
      simp [hm] at hlim
      have hp := hi.permits m hm
      simp only [holding] at hp
      have hst : s.started = [] := hi.zero_cap m hm hlim
      have hsl := hi.started_len
      rw [hst] at hsl
      simp only [List.length_nil] at hsl
      have hl : live s = 0 := by omega
      have he : s.execs = [] := List.length_eq_zero.mp (by simp only [live] at hl; omega)
      have hr : s.releasing = 0 := by simp only [live] at hl; omega
      have hfin : s.finishing = 0 := by simp only [live] at hl; omega
      have hdh : dispHolds s.disp = 0 := by omega
      have hd : s.disp = .acquire := by
        cases hh : s.disp <;> simp [hh, dispHolds] at hd1 hd2 hdh ⊢
      have hne : ¬ s.g.wg = 0 := by omega
      have hstuck : ∀ a, step a s = none := by
        intro a
        cases a <;> simp [step, hown, hd, hm, hr, he, hfin, semSend, hlim, hne]
      refine ⟨hst, hl, hstuck, ?_⟩
      intro more s' hrun
      cases more with
      | nil =>
        simp [run] at hrun
        subst hrun
        exact ⟨hw, hst⟩
      | cons a as =>
        simp [run, hstuck a] at hrun

/-- C10 at limit 1 with one task running and one queued (a runner step is enabled), and at
limit 0 with one task submitted (nothing is enabled, the counter stays at 1). -/
theorem progress_unless_limit_zero_witness :
    run busySchedule (init false) = some (after false busySchedule) ∧
    limitOf (after false busySchedule) = some 1 ∧
    (∃ a s', a.byWorker = true ∧ step a (after false busySchedule) = some s') ∧
    run stuckSchedule (init false) = some (after false stuckSchedule) ∧
    limitOf (after false stuckSchedule) = some 0 ∧
    (after false stuckSchedule).g.wg = 1 ∧
    (after false stuckSchedule).started = [] ∧
    step .acquire (after false stuckSchedule) = none :=
  ⟨by decide, by decide,
    (progress_unless_limit_zero false busySchedule (after false busySchedule) (by decide)
      (by decide) (by decide)).1 (by decide),
    by decide, by decide, by decide,
    ((progress_unless_limit_zero false stuckSchedule (after false stuckSchedule) (by decide)
      (by decide) (by decide)).2 (by decide)).1,
    ((progress_unless_limit_zero false stuckSchedule (after false stuckSchedule) (by decide)
      (by decide) (by decide)).2 (by decide)).2.2.1 .acquire⟩

end Nerrgroup
